import Mathlib

/-!
# lab2: single-slot event-driven listener

A shallow embedding of `src/lab2.cpp`.  System calls are not executed: every
call that the program makes is appended to a trace of `Event`s, and the value
each call returns is taken from an explicit environment (`Setup` for the
start-up calls, `Env` for `pselect`, `accept` and `recv`).

Conventions of the embedding:

* `errno` is read from the result record of the failing call (the `printf`
  between `pselect` and the test of line 108 is taken not to change it);
* `SIGHUP` is blocked from line 78 on and unblocked only inside `pselect`
  (`waitmask`), so `on_sighup` can run only during the wait: each wait result
  says whether it did;
* after `pselect`, `rfds` holds the descriptors that were put in and are
  readable; descriptor numbers are below `FD_SETSIZE`;
* the assignment `client_fd = fd` of line 126 is recorded in the trace as
  `Event.install fd`, although it is not a call.
-/

namespace Lab2

/-! ## Constants of the platform headers -/

/-- Value of the `EINTR` macro of `<errno.h>` on Linux. -/
def EINTR : Int := 4

/-- Value of the `EAGAIN` macro of `<errno.h>` on Linux. -/
def EAGAIN : Int := 11

/-- Value of the `EWOULDBLOCK` macro of `<errno.h>` on Linux (same as `EAGAIN`). -/
def EWOULDBLOCK : Int := 11

/-! ## Trace of observable actions -/

/-- The library calls whose failure `main` reports through `perror`. -/
inductive Call where
  | socket
  | bind
  | listen
  | fcntl
  | sigaction
  | sigprocmask
  | pselect
  | accept
  | recv
  deriving DecidableEq, Repr

/-- The lines of text `main` prints. -/
inductive Msg where
  /-- Text `Invalid port` (line 29). -/
  | invalidPort
  /-- Text `SIGHUP received` (line 102). -/
  | sighupReceived
  /-- Text `New connection` (line 122). -/
  | newConnection
  /-- Text `Received %zd bytes` (line 137). -/
  | received (n : Int)
  deriving DecidableEq, Repr

/-- One observable action of `main`. -/
inductive Event where
  /-- Call of `fprintf(stderr, ...)`. -/
  | stderr (m : Msg)
  /-- Call of `printf(...)` followed by `fflush(stdout)`. -/
  | stdout (m : Msg)
  /-- Call of `perror(...)` after the named call failed. -/
  | perror (c : Call)
  /-- Call of `socket(AF_INET, SOCK_STREAM, 0)` returning `ret`. -/
  | socket (ret : Int)
  /-- Call of `bind(fd, ...)` to the wildcard address on `port`. -/
  | bind (fd : Int) (port : Int)
  /-- Call of `listen(fd, SOMAXCONN)`. -/
  | listen (fd : Int)
  /-- Call of `fcntl(fd, F_GETFL, 0)`. -/
  | getfl (fd : Int)
  /-- Call of `fcntl(fd, F_SETFL, flags | O_NONBLOCK)`; the event carries `flags`. -/
  | setfl (fd : Int) (flags : Int)
  /-- Call of `sigaction(SIGHUP, &sa, nullptr)` installing `on_sighup`. -/
  | sigaction
  /-- Call of `sigprocmask(SIG_BLOCK, &blockmask, &origmask)`. -/
  | sigprocmask
  /-- Call of `FD_SET(fd, &rfds)`. -/
  | fdset (fd : Int)
  /-- Call of `pselect(nfds, &rfds, ...)` with the watch set `watch`. -/
  | pselect (nfds : Int) (watch : List Int)
  /-- Call of `accept(fd, nullptr, nullptr)` returning `ret`. -/
  | accept (fd : Int) (ret : Int)
  /-- The assignment `client_fd = fd` of line 126 (no system call). -/
  | install (fd : Int)
  /-- Call of `close(fd)`. -/
  | close (fd : Int)
  /-- Call of `recv(fd, buf, sizeof(buf), 0)` returning `ret`. -/
  | recv (fd : Int) (ret : Int)
  deriving DecidableEq, Repr

/-! ## Environment -/

/-- Result of one `accept` or `recv` call: the return value and the `errno`
left by the call when it fails. -/
structure SysRet where
  ret : Int
  errno : Int
  deriving DecidableEq, Repr

/-- Result of one `pselect` call.  `sighup` tells whether `on_sighup` ran while
the call had `SIGHUP` unmasked; `ready` is the set of readable descriptors. -/
structure WaitRet where
  sighup : Bool
  ret : Int
  errno : Int
  ready : List Int
  deriving DecidableEq, Repr

/-- Results of the start-up calls of `main`, in program order. -/
structure Setup where
  socketRet : Int
  bindRet : Int
  listenRet : Int
  getflRet : Int
  setflRet : Int
  sigactionRet : Int
  sigprocmaskRet : Int
  deriving DecidableEq, Repr

/-- Results of the calls made inside the event loop, one list per call. -/
structure Env where
  waits : List WaitRet
  accepts : List SysRet
  recvs : List SysRet
  deriving DecidableEq, Repr

/-- The variables of `main` that live across loop iterations, with the results
not yet consumed by `accept` and `recv`. -/
structure State where
  client_fd : Int
  g_sighup : Int
  accepts : List SysRet
  recvs : List SysRet
  deriving DecidableEq, Repr

/-- How an iteration of the outer `for (;;)` ends: `again` for `continue` or
falling off the end of the body, `leave` for `break`. -/
inductive Flow where
  | again
  | leave
  deriving DecidableEq, Repr

/-! ## Port argument (lines 25-32) -/

/-- The `isspace` test of the C locale. -/
def isspace (c : Char) : Bool :=
  c.toNat = 32 || (9 ≤ c.toNat && c.toNat ≤ 13)

/-- The `isdigit` test. -/
def isdigit (c : Char) : Bool :=
  48 ≤ c.toNat && c.toNat ≤ 57

/-- Value of the longest prefix of decimal digits, continuing from `acc`. -/
def digitsValue : List Char → Nat → Nat
  | [], acc => acc
  | c :: cs, acc => if isdigit c then digitsValue cs (acc * 10 + (c.toNat - 48)) else acc

/-- Sign and digits of a numeral once the leading white space is gone. -/
def signedValue : List Char → Int
  | '-' :: cs => -(digitsValue cs 0 : Int)
  | '+' :: cs => (digitsValue cs 0 : Int)
  | cs => (digitsValue cs 0 : Int)

/-- The integer a C numeric conversion reads at the start of a string: white
space is skipped, one optional sign is taken, then the longest run of decimal
digits; `0` when there is no digit. -/
def leadingInt (s : List Char) : Int :=
  signedValue (s.dropWhile isspace)

/-- The constant `LONG_MAX` for a 64-bit `long`. -/
def LONG_MAX : Int := 2 ^ 63 - 1

/-- The constant `LONG_MIN` for a 64-bit `long`. -/
def LONG_MIN : Int := -(2 ^ 63)

/-- The call `strtol(s, NULL, 10)` of the C library: the leading integer, saturated to
the range of `long`. -/
def strtol (s : List Char) : Int :=
  max LONG_MIN (min LONG_MAX (leadingInt s))

/-- Conversion of a `long` to a 32-bit `int` (two's complement truncation). -/
def toInt32 (x : Int) : Int :=
  (x + 2 ^ 31) % 2 ^ 32 - 2 ^ 31

/-- The call `atoi(s)` of the C library, which is `(int) strtol(s, NULL, 10)`. -/
def atoi (s : List Char) : Int :=
  toInt32 (strtol s)

/-- Lines 25-32 of `main`: the listening port, or `none` when the argument is
rejected.  `argv` holds the program name followed by the arguments. -/
def startupPort (argv : List (List Char)) : Option Int :=
  match argv with
  | _ :: arg :: _ =>
    let port := atoi arg
    if port ≤ 0 ∨ port > 65535 then none else some port
  | _ => some 12345

/-- The string is a decimal numeral: an optional sign followed by one or more
digits and nothing else. -/
def isNumeral : List Char → Bool
  | '-' :: cs => !cs.isEmpty && cs.all isdigit
  | '+' :: cs => !cs.isEmpty && cs.all isdigit
  | cs => !cs.isEmpty && cs.all isdigit

/-! ## Event loop (lines 86-150) -/

/-- The signal handler (line 16): the new value of the latch. -/
def on_sighup (_g : Int) : Int := 1

/-- The inner `for (;;)` of lines 114-130, started with slot `client_fd`.
Returns the slot, the actions performed and the `accept` results left over;
`none` when the supplied results end before `accept` fails. -/
def acceptDrain (listen_fd : Int) : List SysRet → Int → Option (Int × List Event × List SysRet)
  | [], _ => none
  | a :: rest, client_fd =>
    if a.ret < 0 then
      if a.errno = EAGAIN ∨ a.errno = EWOULDBLOCK then
        some (client_fd, [Event.accept listen_fd a.ret], rest)
      else
        some (client_fd, [Event.accept listen_fd a.ret, Event.perror Call.accept], rest)
    else if client_fd < 0 then
      (acceptDrain listen_fd rest a.ret).map fun p =>
        (p.1, Event.accept listen_fd a.ret :: Event.stdout Msg.newConnection ::
          Event.install a.ret :: p.2.1, p.2.2)
    else
      (acceptDrain listen_fd rest client_fd).map fun p =>
        (p.1, Event.accept listen_fd a.ret :: Event.stdout Msg.newConnection ::
          Event.close a.ret :: p.2.1, p.2.2)

/-- Lines 133-149: the read on the slot, given the descriptor set `rfds` left
by `pselect`.  `none` when a `recv` result is needed and none is supplied. -/
def recvStep (client_fd : Int) (rfds : List Int) (recvs : List SysRet) :
    Option (Int × List Event × List SysRet) :=
  if client_fd ≥ 0 ∧ client_fd ∈ rfds then
    match recvs with
    | [] => none
    | r :: rest =>
      if r.ret > 0 then
        some (client_fd, [Event.recv client_fd r.ret, Event.stdout (Msg.received r.ret)], rest)
      else if r.ret = 0 then
        some (-1, [Event.recv client_fd r.ret, Event.close client_fd], rest)
      else if r.errno ≠ EINTR then
        some (-1, [Event.recv client_fd r.ret, Event.perror Call.recv,
          Event.close client_fd], rest)
      else
        some (client_fd, [Event.recv client_fd r.ret], rest)
  else
    some (client_fd, [], recvs)

/-- Lines 89-97: the descriptors put into `rfds` before the wait. -/
def watchSet (listen_fd client_fd : Int) : List Int :=
  listen_fd :: (if client_fd ≥ 0 then [client_fd] else [])

/-- Lines 92-97: the value of `maxfd`. -/
def maxFd (listen_fd client_fd : Int) : Int :=
  if client_fd ≥ 0 ∧ client_fd > listen_fd then client_fd else listen_fd

/-- Lines 89-99: the actions up to and including the `pselect` call. -/
def waitEvents (listen_fd client_fd : Int) : List Event :=
  Event.fdset listen_fd :: ((if client_fd ≥ 0 then [Event.fdset client_fd] else []) ++
    [Event.pselect (maxFd listen_fd client_fd + 1) (watchSet listen_fd client_fd)])

/-- Lines 101-105: the report made for a set latch. -/
def latchEvents (g : Int) : List Event :=
  if g ≠ 0 then [Event.stdout Msg.sighupReceived] else []

/-- The contents of `rfds` after a `pselect` that reports `ready`: of the
descriptors put in before the call, those that are readable. -/
def readFds (listen_fd client_fd : Int) (ready : List Int) : List Int :=
  (watchSet listen_fd client_fd).filter (fun fd => decide (fd ∈ ready))

/-- One iteration of the outer loop (lines 89-149) with `pselect` result `w`. -/
def loopBody (listen_fd : Int) (w : WaitRet) (s : State) :
    Option (State × List Event × Flow) :=
  let rfds := readFds listen_fd s.client_fd w.ready
  let g := if w.sighup then on_sighup s.g_sighup else s.g_sighup
  let g1 := if g ≠ 0 then 0 else g
  let ev := waitEvents listen_fd s.client_fd ++ latchEvents g
  if w.ret < 0 then
    if w.errno = EINTR then
      some ({ s with g_sighup := g1 }, ev, Flow.again)
    else
      some ({ s with g_sighup := g1 }, ev ++ [Event.perror Call.pselect], Flow.leave)
  else
    match (if listen_fd ∈ rfds then acceptDrain listen_fd s.accepts s.client_fd
           else some (s.client_fd, [], s.accepts)) with
    | none => none
    | some (c, evA, acc) =>
      match recvStep c rfds s.recvs with
      | none => none
      | some (c1, evR, rc) =>
        some ({ client_fd := c1, g_sighup := g1, accepts := acc, recvs := rc },
          ev ++ evA ++ evR, Flow.again)

/-- The outer `for (;;)` of lines 88-150 run over the supplied `pselect`
results.  The flow is `leave` when the loop was left through `break`, and
`again` when the results ended with the loop still running. -/
def eventLoop (listen_fd : Int) : List WaitRet → State → Option (State × List Event × Flow)
  | [], s => some (s, [], Flow.again)
  | w :: ws, s =>
    match loopBody listen_fd w s with
    | none => none
    | some (s1, ev, Flow.leave) => some (s1, ev, Flow.leave)
    | some (s1, ev, Flow.again) =>
      (eventLoop listen_fd ws s1).map fun p => (p.1, ev ++ p.2.1, p.2.2)

/-! ## main -/

/-- Lines 18-22, `set_nonblock(fd)`: the return value and the calls made. -/
def set_nonblock (fd : Int) (su : Setup) : Int × List Event :=
  if su.getflRet < 0 then (-1, [Event.getfl fd])
  else (su.setflRet, [Event.getfl fd, Event.setfl fd su.getflRet])

/-- Lines 152-153: the descriptors closed after the loop. -/
def shutdownEvents (listen_fd client_fd : Int) : List Event :=
  (if client_fd ≥ 0 then [Event.close client_fd] else []) ++ [Event.close listen_fd]

/-- The actions of lines 34-84 when every start-up call succeeds. -/
def setupEvents (listen_fd port : Int) (su : Setup) : List Event :=
  [Event.socket listen_fd, Event.bind listen_fd port, Event.listen listen_fd] ++
    (set_nonblock listen_fd su).2 ++ [Event.sigaction, Event.sigprocmask]

/-- The whole of `main`: exit status and trace, or `none` when the supplied
results end before `main` returns. -/
def main (argv : List (List Char)) (su : Setup) (env : Env) : Option (Int × List Event) :=
  match startupPort argv with
  | none => some (1, [Event.stderr Msg.invalidPort])
  | some port =>
    let listen_fd := su.socketRet
    if listen_fd < 0 then
      some (1, [Event.socket listen_fd, Event.perror Call.socket])
    else if su.bindRet < 0 then
      some (1, [Event.socket listen_fd, Event.bind listen_fd port, Event.perror Call.bind,
        Event.close listen_fd])
    else if su.listenRet < 0 then
      some (1, [Event.socket listen_fd, Event.bind listen_fd port, Event.listen listen_fd,
        Event.perror Call.listen, Event.close listen_fd])
    else if (set_nonblock listen_fd su).1 < 0 then
      some (1, [Event.socket listen_fd, Event.bind listen_fd port, Event.listen listen_fd] ++
        (set_nonblock listen_fd su).2 ++ [Event.perror Call.fcntl, Event.close listen_fd])
    else if su.sigactionRet < 0 then
      some (1, [Event.socket listen_fd, Event.bind listen_fd port, Event.listen listen_fd] ++
        (set_nonblock listen_fd su).2 ++
        [Event.sigaction, Event.perror Call.sigaction, Event.close listen_fd])
    else if su.sigprocmaskRet < 0 then
      some (1, setupEvents listen_fd port su ++
        [Event.perror Call.sigprocmask, Event.close listen_fd])
    else
      match eventLoop listen_fd env.waits
          { client_fd := -1, g_sighup := 0, accepts := env.accepts, recvs := env.recvs } with
      | some (s, ev, Flow.leave) =>
        some (0, setupEvents listen_fd port su ++ ev ++ shutdownEvents listen_fd s.client_fd)
      | _ => none

/-! ## Observations on traces -/

/-- The descriptors passed to `close`, in order. -/
def closedFds : List Event → List Int
  | [] => []
  | Event.close fd :: t => fd :: closedFds t
  | _ :: t => closedFds t

/-- The descriptors passed to `recv`, in order. -/
def recvFds : List Event → List Int
  | [] => []
  | Event.recv fd _ :: t => fd :: recvFds t
  | _ :: t => recvFds t

/-- The open descriptors after the trace, starting from the open descriptors
`opened`: a successful `socket` or `accept` opens its result, `close` closes
one open instance of its argument. -/
def openAfter : List Event → List Int → List Int
  | [], opened => opened
  | Event.socket ret :: t, opened => openAfter t (if ret ≥ 0 then ret :: opened else opened)
  | Event.accept _ ret :: t, opened => openAfter t (if ret ≥ 0 then ret :: opened else opened)
  | Event.close fd :: t, opened => openAfter t (opened.erase fd)
  | _ :: t, opened => openAfter t opened

/-- Every `close` of the trace is applied to a descriptor that is open at
that point (so nothing is closed twice). -/
def closesValid : List Event → List Int → Bool
  | [], _ => true
  | Event.socket ret :: t, opened => closesValid t (if ret ≥ 0 then ret :: opened else opened)
  | Event.accept _ ret :: t, opened => closesValid t (if ret ≥ 0 then ret :: opened else opened)
  | Event.close fd :: t, opened => decide (fd ∈ opened) && closesValid t (opened.erase fd)
  | _ :: t, opened => closesValid t opened

/-- The descriptors held by the slot: `client_fd` when it is occupied. -/
def heldFds (client_fd : Int) : List Int :=
  if client_fd ≥ 0 then [client_fd] else []

/-- The action watches or reads descriptor `d`: `FD_SET(d, ..)`, a `pselect`
whose watch set holds `d`, or `recv(d, ..)`. -/
def usesFd (d : Int) : Event → Bool
  | Event.fdset fd => decide (fd = d)
  | Event.pselect _ watch => decide (d ∈ watch)
  | Event.recv fd _ => decide (fd = d)
  | _ => false

/-! ## Facts about the accept drain -/

theorem closedFds_append (a b : List Event) : closedFds (a ++ b) = closedFds a ++ closedFds b := by
  induction a with
  | nil => rfl
  | cons e t ih => cases e <;> simp [closedFds, ih]

theorem recvFds_append (a b : List Event) : recvFds (a ++ b) = recvFds a ++ recvFds b := by
  induction a with
  | nil => rfl
  | cons e t ih => cases e <;> simp [recvFds, ih]

theorem openAfter_append (a b : List Event) (o : List Int) :
    openAfter (a ++ b) o = openAfter b (openAfter a o) := by
  induction a generalizing o with
  | nil => rfl
  | cons e t ih => cases e <;> simp [openAfter, ih]

theorem closesValid_append (a b : List Event) (o : List Int) :
    closesValid (a ++ b) o = (closesValid a o && closesValid b (openAfter a o)) := by
  induction a generalizing o with
  | nil => simp [closesValid, openAfter]
  | cons e t ih => cases e <;> simp [closesValid, openAfter, ih, Bool.and_assoc]

/-- Inversion of one round of the accept drain. -/
theorem acceptDrain_cons_inv {listen_fd : Int} {a : SysRet} {t : List SysRet} {c c1 : Int}
    {ev : List Event} {rest : List SysRet}
    (h : acceptDrain listen_fd (a :: t) c = some (c1, ev, rest)) :
    (a.ret < 0 ∧ c1 = c ∧ rest = t ∧
      (ev = [Event.accept listen_fd a.ret] ∨
        ev = [Event.accept listen_fd a.ret, Event.perror Call.accept])) ∨
    (0 ≤ a.ret ∧ c < 0 ∧ ∃ ev1, acceptDrain listen_fd t a.ret = some (c1, ev1, rest) ∧
      ev = Event.accept listen_fd a.ret :: Event.stdout Msg.newConnection ::
        Event.install a.ret :: ev1) ∨
    (0 ≤ a.ret ∧ 0 ≤ c ∧ ∃ ev1, acceptDrain listen_fd t c = some (c1, ev1, rest) ∧
      ev = Event.accept listen_fd a.ret :: Event.stdout Msg.newConnection ::
        Event.close a.ret :: ev1) := by
  unfold acceptDrain at h
  by_cases h1 : a.ret < 0
  · left
    rw [if_pos h1] at h
    by_cases h2 : a.errno = EAGAIN ∨ a.errno = EWOULDBLOCK
    · rw [if_pos h2] at h
      simp only [Option.some.injEq, Prod.mk.injEq] at h
      obtain ⟨rfl, rfl, rfl⟩ := h
      exact ⟨h1, rfl, rfl, Or.inl rfl⟩
    · rw [if_neg h2] at h
      simp only [Option.some.injEq, Prod.mk.injEq] at h
      obtain ⟨rfl, rfl, rfl⟩ := h
      exact ⟨h1, rfl, rfl, Or.inr rfl⟩
  · right
    rw [if_neg h1] at h
    by_cases h2 : c < 0
    · left
      rw [if_pos h2] at h
      obtain ⟨p, hp, hq⟩ := Option.map_eq_some'.mp h
      obtain ⟨p1, p2, p3⟩ := p
      simp only [Prod.mk.injEq] at hq
      obtain ⟨rfl, rfl, rfl⟩ := hq
      exact ⟨not_lt.mp h1, h2, p2, hp, rfl⟩
    · right
      rw [if_neg h2] at h
      obtain ⟨p, hp, hq⟩ := Option.map_eq_some'.mp h
      obtain ⟨p1, p2, p3⟩ := p
      simp only [Prod.mk.injEq] at hq
      obtain ⟨rfl, rfl, rfl⟩ := hq
      exact ⟨not_lt.mp h1, not_lt.mp h2, p2, hp, rfl⟩

/-- With the slot occupied the drain keeps the slot, installs nothing, never
closes a descriptor that is not open and leaves the open descriptors as they
were; the descriptors it closes are results of `accept`. -/
theorem acceptDrain_occupied_inv {listen_fd : Int} {as : List SysRet} {c c1 : Int}
    {ev : List Event} {rest : List SysRet} (hc : 0 ≤ c)
    (h : acceptDrain listen_fd as c = some (c1, ev, rest)) :
    c1 = c ∧ (∀ f, Event.install f ∉ ev) ∧ (∀ e ∈ ev,
      (∀ d, usesFd d e = false) ∧ e ≠ Event.perror Call.recv ∧
      ∀ k, e ≠ Event.stdout (Msg.received k)) ∧
      (∀ f, Event.close f ∈ ev → Event.accept listen_fd f ∈ ev) ∧
      (∀ o, closesValid ev o = true) ∧ (∀ o, openAfter ev o = o) := by
  induction as generalizing ev with
  | nil => simp [acceptDrain] at h
  | cons a t ih =>
    rcases acceptDrain_cons_inv h with ⟨h1, rfl, _, rfl | rfl⟩ | ⟨_, h2, _⟩ | ⟨h1, _, ev1, h3, rfl⟩
    · simp [usesFd, closesValid, openAfter, not_le.mpr h1]
    · simp [usesFd, closesValid, openAfter, not_le.mpr h1]
    · omega
    · obtain ⟨i1, i2, i3, i4, i5, i6⟩ := ih h3
      refine ⟨i1, ?_, ?_, ?_, ?_, ?_⟩
      · intro f; simp [i2 f]
      · intro e he
        simp only [List.mem_cons] at he
        rcases he with rfl | rfl | rfl | he
        · simp [usesFd]
        · simp [usesFd]
        · simp [usesFd]
        · exact i3 e he
      · intro f hf
        simp only [List.mem_cons, reduceCtorEq, Event.close.injEq, false_or] at hf
        rcases hf with rfl | hf
        · exact List.mem_cons_self _ _
        · exact List.mem_cons_of_mem _ (List.mem_cons_of_mem _ (List.mem_cons_of_mem _
            (i4 f hf)))
      · intro o; simp [closesValid, h1, i5]
      · intro o; simp [openAfter, h1, i6]

/-- With the slot occupied, a drain that meets `as` successful accepts and then
a failure ends, consumes exactly these results and closes every accepted
descriptor. -/
theorem acceptDrain_occupied (listen_fd : Int) (as : List SysRet) (stop : SysRet)
    (rest : List SysRet) (c : Int) (has : ∀ x ∈ as, 0 ≤ x.ret) (hstop : stop.ret < 0)
    (hc : 0 ≤ c) :
    ∃ ev, acceptDrain listen_fd (as ++ stop :: rest) c = some (c, ev, rest) ∧
      closedFds ev = as.map SysRet.ret := by
  induction as with
  | nil =>
    by_cases he : stop.errno = EAGAIN ∨ stop.errno = EWOULDBLOCK
    · refine ⟨[Event.accept listen_fd stop.ret], ?_, ?_⟩ <;>
        simp [acceptDrain, hstop, he, closedFds]
    · refine ⟨[Event.accept listen_fd stop.ret, Event.perror Call.accept], ?_, ?_⟩ <;>
        simp [acceptDrain, hstop, he, closedFds]
  | cons a t ih =>
    have ha : 0 ≤ a.ret := has a (List.mem_cons_self _ _)
    obtain ⟨ev, h1, h2⟩ := ih (fun x hx => has x (List.mem_cons_of_mem _ hx))
    refine ⟨Event.accept listen_fd a.ret :: Event.stdout Msg.newConnection ::
      Event.close a.ret :: ev, ?_, ?_⟩
    · simp [acceptDrain, not_lt.mpr ha, not_lt.mpr hc, h1]
    · simp [closedFds, h2]

/-- C1. One accept-drain pass (lines 114-130) in which `accept` returns the
descriptors of `a :: as` (k >= 1 of them) and then fails: the pass ends having
consumed exactly these results.  If the slot was empty (`client_fd < 0`, i.e.
`-1`) it now holds the first descriptor, the descriptors closed are exactly the
later ones, and of the descriptors accepted only the installed one is still
open.  If the slot held `c` it still holds `c`, nothing is installed, the
descriptors closed are exactly all accepted ones, and `c` is the only
descriptor still open.  In both cases the slot holds one descriptor. -/
theorem acceptDrain_single_slot (listen_fd : Int) (a : SysRet) (as : List SysRet)
    (stop : SysRet) (rest : List SysRet) (c : Int)
    (ha : 0 ≤ a.ret) (has : ∀ x ∈ as, 0 ≤ x.ret) (hstop : stop.ret < 0) :
    ∃ c1 ev, acceptDrain listen_fd (a :: (as ++ stop :: rest)) c = some (c1, ev, rest) ∧
      (c < 0 → c1 = a.ret ∧ Event.install a.ret ∈ ev ∧
        closedFds ev = as.map SysRet.ret ∧ openAfter ev [] = [a.ret]) ∧
      (0 ≤ c → c1 = c ∧ (∀ f, Event.install f ∉ ev) ∧
        closedFds ev = (a :: as).map SysRet.ret ∧ openAfter ev [c] = [c]) := by
  by_cases hc : c < 0
  · obtain ⟨ev, h1, h2⟩ := acceptDrain_occupied listen_fd as stop rest a.ret has hstop ha
    obtain ⟨_, _, _, _, _, h5⟩ := acceptDrain_occupied_inv ha h1
    refine ⟨a.ret, Event.accept listen_fd a.ret :: Event.stdout Msg.newConnection ::
      Event.install a.ret :: ev, ?_, ?_, ?_⟩
    · simp [acceptDrain, not_lt.mpr ha, hc, h1]
    · intro _
      simp [closedFds, h2, openAfter, ha, h5]
    · intro h; omega
  · have hc0 : 0 ≤ c := not_lt.mp hc
    obtain ⟨ev, h1, h2⟩ :=
      acceptDrain_occupied listen_fd (a :: as) stop rest c
        (fun x hx => by
          rcases List.mem_cons.mp hx with h | h
          · exact h ▸ ha
          · exact has x h) hstop hc0
    obtain ⟨_, h3, _, _, _, h5⟩ := acceptDrain_occupied_inv hc0 h1
    refine ⟨c, ev, ?_, ?_, ?_⟩
    · simpa using h1
    · intro h; omega
    · intro _
      exact ⟨rfl, h3, h2, h5 [c]⟩

/-- Witness for C1: slot empty, `accept` returns 5, 6, 7 and then would block. -/
theorem acceptDrain_single_slot_witness :
    ∃ c1 ev, acceptDrain 3 (⟨5, 0⟩ :: ([⟨6, 0⟩, ⟨7, 0⟩] ++ ⟨-1, EAGAIN⟩ :: [])) (-1) =
        some (c1, ev, []) ∧
      ((-1 : Int) < 0 → c1 = 5 ∧ Event.install 5 ∈ ev ∧
        closedFds ev = [6, 7] ∧ openAfter ev [] = [5]) ∧
      ((0 : Int) ≤ -1 → c1 = -1 ∧ (∀ f, Event.install f ∉ ev) ∧
        closedFds ev = [5, 6, 7] ∧ openAfter ev [-1] = [-1]) :=
  acceptDrain_single_slot 3 ⟨5, 0⟩ [⟨6, 0⟩, ⟨7, 0⟩] ⟨-1, EAGAIN⟩ [] (-1)
    (by decide) (by decide) (by decide)

/-! ## Facts about one iteration -/

/-- What any drain does: the slot changes only from empty to an accepted
descriptor, which is then recorded as installed; no descriptor is watched or
read; no close hits a descriptor that is not open; the open descriptors grow
by the installed one only. -/
theorem acceptDrain_inv {listen_fd : Int} {as : List SysRet} {c c1 : Int}
    {ev : List Event} {rest : List SysRet}
    (h : acceptDrain listen_fd as c = some (c1, ev, rest)) :
    (c1 = c ∨ (c < 0 ∧ 0 ≤ c1 ∧ Event.install c1 ∈ ev ∧ ∃ x ∈ as, x.ret = c1)) ∧
      (∀ f, Event.install f ∈ ev → c < 0 ∧ f = c1) ∧
      (∀ e ∈ ev, ∀ d, usesFd d e = false) ∧
      (∀ o, closesValid ev o = true) ∧
      (∀ o, openAfter ev o = if c < 0 ∧ 0 ≤ c1 then c1 :: o else o) := by
  induction as generalizing ev with
  | nil => simp [acceptDrain] at h
  | cons a t ih =>
    rcases acceptDrain_cons_inv h with ⟨h1, rfl, _, rfl | rfl⟩ | ⟨h1, h2, ev1, h3, rfl⟩ |
      ⟨h1, h2, ev1, h3, rfl⟩
    · refine ⟨Or.inl rfl, ?_, ?_, ?_, ?_⟩ <;>
        simp [usesFd, closesValid, openAfter, not_le.mpr h1]
      intro o; rw [if_neg (by omega)]
    · refine ⟨Or.inl rfl, ?_, ?_, ?_, ?_⟩ <;>
        simp [usesFd, closesValid, openAfter, not_le.mpr h1]
      intro o; rw [if_neg (by omega)]
    · obtain ⟨i1, i2, i3, _, i5, i6⟩ := acceptDrain_occupied_inv h1 h3
      subst i1
      refine ⟨Or.inr ⟨h2, h1, by simp, a, List.mem_cons_self _ _, rfl⟩, ?_, ?_, ?_, ?_⟩
      · intro f hf
        simp only [List.mem_cons, reduceCtorEq, Event.install.injEq, false_or] at hf
        rcases hf with rfl | hf
        · exact ⟨h2, rfl⟩
        · exact absurd hf (i2 f)
      · intro e he
        simp only [List.mem_cons] at he
        rcases he with rfl | rfl | rfl | he
        · simp [usesFd]
        · simp [usesFd]
        · simp [usesFd]
        · exact (i3 e he).1
      · intro o; simp [closesValid, i5]
      · intro o; simp [openAfter, h1, h2, i6]
    · obtain ⟨i1, i2, i3, _, i5, i6⟩ := acceptDrain_occupied_inv h2 h3
      subst i1
      refine ⟨Or.inl rfl, ?_, ?_, ?_, ?_⟩
      · intro f hf
        simp only [List.mem_cons, reduceCtorEq, false_or] at hf
        exact absurd hf (i2 f)
      · intro e he
        simp only [List.mem_cons] at he
        rcases he with rfl | rfl | rfl | he
        · simp [usesFd]
        · simp [usesFd]
        · simp [usesFd]
        · exact (i3 e he).1
      · intro o; simp [closesValid, h1, i5]
      · intro o; simp [openAfter, h1, i6, not_lt.mpr h2]

/-- Inversion of the read step. -/
theorem recvStep_inv {c c1 : Int} {rfds : List Int} {recvs rc : List SysRet} {ev : List Event}
    (h : recvStep c rfds recvs = some (c1, ev, rc)) :
    (¬(0 ≤ c ∧ c ∈ rfds) ∧ c1 = c ∧ ev = [] ∧ rc = recvs) ∨
    (0 ≤ c ∧ c ∈ rfds ∧ ∃ r, recvs = r :: rc ∧
      ((0 < r.ret ∧ c1 = c ∧ ev = [Event.recv c r.ret, Event.stdout (Msg.received r.ret)]) ∨
       (r.ret = 0 ∧ c1 = -1 ∧ ev = [Event.recv c r.ret, Event.close c]) ∨
       (r.ret < 0 ∧ r.errno ≠ EINTR ∧ c1 = -1 ∧
          ev = [Event.recv c r.ret, Event.perror Call.recv, Event.close c]) ∨
       (r.ret < 0 ∧ r.errno = EINTR ∧ c1 = c ∧ ev = [Event.recv c r.ret]))) := by
  unfold recvStep at h
  by_cases hc : c ≥ 0 ∧ c ∈ rfds
  · right
    rw [if_pos hc] at h
    cases recvs with
    | nil => simp at h
    | cons r rest =>
      simp only at h
      refine ⟨hc.1, hc.2, r, ?_⟩
      by_cases h1 : r.ret > 0
      · rw [if_pos h1] at h
        simp only [Option.some.injEq, Prod.mk.injEq] at h
        obtain ⟨rfl, rfl, rfl⟩ := h
        exact ⟨rfl, Or.inl ⟨h1, rfl, rfl⟩⟩
      · rw [if_neg h1] at h
        by_cases h2 : r.ret = 0
        · rw [if_pos h2] at h
          simp only [Option.some.injEq, Prod.mk.injEq] at h
          obtain ⟨rfl, rfl, rfl⟩ := h
          exact ⟨rfl, Or.inr (Or.inl ⟨h2, rfl, rfl⟩)⟩
        · rw [if_neg h2] at h
          have h3 : r.ret < 0 := by omega
          by_cases h4 : r.errno ≠ EINTR
          · rw [if_pos h4] at h
            simp only [Option.some.injEq, Prod.mk.injEq] at h
            obtain ⟨rfl, rfl, rfl⟩ := h
            exact ⟨rfl, Or.inr (Or.inr (Or.inl ⟨h3, h4, rfl, rfl⟩))⟩
          · rw [if_neg h4] at h
            simp only [Option.some.injEq, Prod.mk.injEq] at h
            obtain ⟨rfl, rfl, rfl⟩ := h
            exact ⟨rfl, Or.inr (Or.inr (Or.inr ⟨h3, not_not.mp h4, rfl, rfl⟩))⟩
  · left
    rw [if_neg hc] at h
    simp only [Option.some.injEq, Prod.mk.injEq] at h
    obtain ⟨rfl, rfl, rfl⟩ := h
    exact ⟨hc, rfl, rfl, rfl⟩

/-- Inversion of an iteration whose wait succeeded: the actions are those of
the wait, the latch report, the accept drain (when the listening descriptor is
in `rfds`) and the read step, in this order, and the loop goes on. -/
theorem loopBody_ok_inv {listen_fd : Int} {w : WaitRet} {s s1 : State} {ev : List Event}
    {fl : Flow} (hr : 0 ≤ w.ret) (h : loopBody listen_fd w s = some (s1, ev, fl)) :
    ∃ c evA evR,
      ((listen_fd ∈ readFds listen_fd s.client_fd w.ready ∧
          acceptDrain listen_fd s.accepts s.client_fd = some (c, evA, s1.accepts)) ∨
        (listen_fd ∉ readFds listen_fd s.client_fd w.ready ∧ c = s.client_fd ∧ evA = [] ∧
          s1.accepts = s.accepts)) ∧
      recvStep c (readFds listen_fd s.client_fd w.ready) s.recvs =
        some (s1.client_fd, evR, s1.recvs) ∧
      ev = waitEvents listen_fd s.client_fd ++
        latchEvents (if w.sighup then on_sighup s.g_sighup else s.g_sighup) ++ evA ++ evR ∧
      fl = Flow.again ∧ s1.g_sighup = 0 := by
  unfold loopBody at h
  simp only [not_lt.mpr hr, if_false] at h
  by_cases hl : listen_fd ∈ readFds listen_fd s.client_fd w.ready
  · simp only [hl, if_true] at h
    cases hd : acceptDrain listen_fd s.accepts s.client_fd with
    | none => simp [hd] at h
    | some p =>
      obtain ⟨c, evA, acc⟩ := p
      simp only [hd] at h
      cases hrv : recvStep c (readFds listen_fd s.client_fd w.ready) s.recvs with
      | none => simp [hrv] at h
      | some q =>
        obtain ⟨c1, evR, rc⟩ := q
        simp only [hrv, Option.some.injEq, Prod.mk.injEq] at h
        obtain ⟨rfl, rfl, rfl⟩ := h
        refine ⟨c, evA, evR, Or.inl ⟨hl, rfl⟩, hrv, rfl, rfl, ?_⟩
        simp only
        split <;> simp_all
  · simp only [hl, if_false] at h
    cases hrv : recvStep s.client_fd (readFds listen_fd s.client_fd w.ready) s.recvs with
    | none => simp [hrv] at h
    | some q =>
      obtain ⟨c1, evR, rc⟩ := q
      simp only [hrv, Option.some.injEq, Prod.mk.injEq] at h
      obtain ⟨rfl, rfl, rfl⟩ := h
      refine ⟨s.client_fd, [], evR, Or.inr ⟨hl, rfl, rfl, rfl⟩, hrv, by simp, rfl, ?_⟩
      simp only
      split <;> simp_all

theorem mem_readFds {listen_fd client_fd : Int} {ready : List Int} {x : Int} :
    x ∈ readFds listen_fd client_fd ready ↔
      (x = listen_fd ∨ (0 ≤ client_fd ∧ x = client_fd)) ∧ x ∈ ready := by
  unfold readFds watchSet
  by_cases hc : client_fd ≥ 0
  · simp [hc, List.mem_filter]
  · simp [hc, List.mem_filter]

theorem waitEvents_noDescriptorCall (listen_fd client_fd : Int) :
    closedFds (waitEvents listen_fd client_fd) = [] ∧
      recvFds (waitEvents listen_fd client_fd) = [] ∧
      (∀ o, closesValid (waitEvents listen_fd client_fd) o = true) ∧
      (∀ o, openAfter (waitEvents listen_fd client_fd) o = o) := by
  unfold waitEvents
  by_cases hc : client_fd ≥ 0 <;> simp [hc, closedFds, recvFds, closesValid, openAfter]

theorem latchEvents_noDescriptorCall (g : Int) :
    closedFds (latchEvents g) = [] ∧ recvFds (latchEvents g) = [] ∧
      (∀ o, closesValid (latchEvents g) o = true) ∧ (∀ o, openAfter (latchEvents g) o = o) := by
  unfold latchEvents
  by_cases hg : g ≠ 0 <;> simp [hg, closedFds, recvFds, closesValid, openAfter]

/-- The drain never calls `recv`. -/
theorem acceptDrain_recvFds {listen_fd : Int} {as : List SysRet} {c c1 : Int}
    {ev : List Event} {rest : List SysRet}
    (h : acceptDrain listen_fd as c = some (c1, ev, rest)) : recvFds ev = [] := by
  induction as generalizing c ev with
  | nil => simp [acceptDrain] at h
  | cons a t ih =>
    rcases acceptDrain_cons_inv h with ⟨_, _, _, rfl | rfl⟩ | ⟨_, _, ev1, h3, rfl⟩ |
      ⟨_, _, ev1, h3, rfl⟩
    · rfl
    · rfl
    · simpa [recvFds] using ih h3
    · simpa [recvFds] using ih h3

/-- An iteration that starts with the slot holding `d`, whose wait succeeds and
reports `d` readable: the drain (if any) keeps the slot and only accepts,
reports connections and closes accepted descriptors; then the read step runs
on `d`. -/
theorem loopBody_occupied_ready {listen_fd d : Int} {w : WaitRet} {s s1 : State}
    {ev : List Event} {fl : Flow} (hd : s.client_fd = d) (hd0 : 0 ≤ d) (hr : 0 ≤ w.ret)
    (hready : d ∈ w.ready) (h : loopBody listen_fd w s = some (s1, ev, fl)) :
    ∃ pre evR, recvStep d (readFds listen_fd d w.ready) s.recvs =
        some (s1.client_fd, evR, s1.recvs) ∧
      d ∈ readFds listen_fd d w.ready ∧ ev = pre ++ evR ∧ fl = Flow.again ∧
      recvFds pre = [] ∧ Event.perror Call.recv ∉ pre ∧
      (∀ k, Event.stdout (Msg.received k) ∉ pre) ∧
      (∀ f, Event.close f ∈ pre → Event.accept listen_fd f ∈ pre) := by
  obtain ⟨c, evA, evR, hA, hR, rfl, rfl, _⟩ := loopBody_ok_inv hr h
  subst hd
  have hmem : s.client_fd ∈ readFds listen_fd s.client_fd w.ready :=
    mem_readFds.mpr ⟨Or.inr ⟨hd0, rfl⟩, hready⟩
  have hwait : ∀ e ∈ waitEvents listen_fd s.client_fd ++
      latchEvents (if w.sighup then on_sighup s.g_sighup else s.g_sighup),
      e ≠ Event.perror Call.recv ∧ (∀ k, e ≠ Event.stdout (Msg.received k)) ∧
        ∀ f, e ≠ Event.close f := by
    intro e he
    unfold waitEvents latchEvents at he
    simp only [List.mem_append, List.mem_cons, List.mem_ite_nil_right, List.mem_singleton,
      List.not_mem_nil, or_false] at he
    rcases he with (rfl | ⟨_, rfl⟩ | rfl) | ⟨_, rfl⟩ <;> simp
  have hwr : recvFds (waitEvents listen_fd s.client_fd ++
      latchEvents (if w.sighup then on_sighup s.g_sighup else s.g_sighup)) = [] := by
    rw [recvFds_append, (waitEvents_noDescriptorCall _ _).2.1,
      (latchEvents_noDescriptorCall _).2.1]
    rfl
  rcases hA with ⟨_, hdr⟩ | ⟨_, rfl, rfl, _⟩
  · obtain ⟨rfl, _, i3, i4, _, _⟩ := acceptDrain_occupied_inv hd0 hdr
    have hAr : recvFds evA = [] := acceptDrain_recvFds hdr
    refine ⟨_, evR, hR, hmem, rfl, rfl, ?_, ?_, ?_, ?_⟩
    · rw [recvFds_append, hwr, hAr]; rfl
    · intro hm
      rcases List.mem_append.mp hm with hm | hm
      · exact (hwait _ hm).1 rfl
      · exact (i3 _ hm).2.1 rfl
    · intro k hm
      rcases List.mem_append.mp hm with hm | hm
      · exact (hwait _ hm).2.1 k rfl
      · exact (i3 _ hm).2.2 k rfl
    · intro f hm
      rcases List.mem_append.mp hm with hm | hm
      · exact absurd rfl ((hwait _ hm).2.2 f)
      · exact List.mem_append_right _ (i4 f hm)
  · refine ⟨waitEvents listen_fd s.client_fd ++
      latchEvents (if w.sighup then on_sighup s.g_sighup else s.g_sighup), evR, hR, hmem,
      by simp, rfl, ?_, ?_, ?_, ?_⟩
    · exact hwr
    · intro hm; exact (hwait _ hm).1 rfl
    · intro k hm; exact (hwait _ hm).2.1 k rfl
    · intro f hm; exact absurd rfl ((hwait _ hm).2.2 f)

/-- The drain ends as soon as some `accept` fails. -/
theorem acceptDrain_returns (listen_fd : Int) (as : List SysRet)
    (h : ∃ x ∈ as, x.ret < 0) (c : Int) : ∃ r, acceptDrain listen_fd as c = some r := by
  induction as generalizing c with
  | nil =>
    obtain ⟨x, hx, _⟩ := h
    simp at hx
  | cons a t ih =>
    by_cases ha : a.ret < 0
    · by_cases he : a.errno = EAGAIN ∨ a.errno = EWOULDBLOCK
      · simp only [acceptDrain, ha, he, if_true]
        exact ⟨_, rfl⟩
      · simp only [acceptDrain, ha, he, if_true, if_false]
        exact ⟨_, rfl⟩
    · have ht : ∃ x ∈ t, x.ret < 0 := by
        obtain ⟨x, hx, hxr⟩ := h
        rcases List.mem_cons.mp hx with rfl | hx
        · exact absurd hxr ha
        · exact ⟨x, hx, hxr⟩
      by_cases hc : c < 0
      · obtain ⟨r, hr⟩ := ih ht a.ret
        simp only [acceptDrain, ha, hc, if_true, if_false, hr, Option.map_some']
        exact ⟨_, rfl⟩
      · obtain ⟨r, hr⟩ := ih ht c
        simp only [acceptDrain, ha, hc, if_false, hr, Option.map_some']
        exact ⟨_, rfl⟩

/-- The read step returns when a `recv` result is supplied. -/
theorem recvStep_returns (c : Int) (rfds : List Int) (recvs : List SysRet) (h : recvs ≠ []) :
    ∃ r, recvStep c rfds recvs = some r := by
  cases recvs with
  | nil => exact absurd rfl h
  | cons r rest =>
    unfold recvStep
    by_cases hc : c ≥ 0 ∧ c ∈ rfds
    · simp only [hc, and_self, if_true]
      split_ifs <;> exact ⟨_, rfl⟩
    · rw [if_neg hc]
      exact ⟨_, rfl⟩

/-- An iteration completes when the drain, if it runs, meets a failing
`accept` and a `recv` result is supplied. -/
theorem loopBody_returns (listen_fd : Int) (w : WaitRet) (s : State)
    (hdrain : listen_fd ∈ w.ready → ∃ x ∈ s.accepts, x.ret < 0) (hrecv : s.recvs ≠ []) :
    ∃ r, loopBody listen_fd w s = some r := by
  unfold loopBody
  by_cases hr : w.ret < 0
  · by_cases he : w.errno = EINTR
    · simp only [hr, he, if_true]
      exact ⟨_, rfl⟩
    · simp only [hr, he, if_true, if_false]
      exact ⟨_, rfl⟩
  · simp only [hr, if_false]
    by_cases hl : listen_fd ∈ readFds listen_fd s.client_fd w.ready
    · obtain ⟨⟨c, evA, acc⟩, hA⟩ :=
        acceptDrain_returns listen_fd s.accepts (hdrain (mem_readFds.mp hl).2) s.client_fd
      obtain ⟨⟨c1, evR, rc⟩, hR⟩ :=
        recvStep_returns c (readFds listen_fd s.client_fd w.ready) s.recvs hrecv
      simp only [hl, if_true, hA, hR]
      exact ⟨_, rfl⟩
    · obtain ⟨⟨c1, evR, rc⟩, hR⟩ :=
        recvStep_returns s.client_fd (readFds listen_fd s.client_fd w.ready) s.recvs hrecv
      simp only [hl, if_false, hR]
      exact ⟨_, rfl⟩

/-! ## Interrupted wait -/

/-- C3, as stated, fails: slot holding 4, descriptor 4 readable, `recv` fails
with `EAGAIN`.  The iteration reports the error, closes 4 and empties the slot. -/
theorem recv_wouldblock_empties_slot :
    loopBody 3 ⟨false, 1, 0, [4]⟩ ⟨4, 0, [], [⟨-1, EAGAIN⟩]⟩ =
      some (⟨-1, 0, [], []⟩,
        [Event.fdset 3, Event.fdset 4, Event.pselect 5 [3, 4], Event.recv 4 (-1),
          Event.perror Call.recv, Event.close 4], Flow.again) := by
  decide

/-- A completed iteration in which the slot holds `d`, `d` is readable and
`recv` fails with `EINTR`. -/
theorem recv_eintr_step (listen_fd d n : Int) (w : WaitRet) (s s1 : State)
    (ev : List Event) (fl : Flow) (rs : List SysRet)
    (hd : s.client_fd = d) (hd0 : 0 ≤ d) (hr : 0 ≤ w.ret) (hready : d ∈ w.ready)
    (hrecv : s.recvs = ⟨n, EINTR⟩ :: rs) (hn : n < 0)
    (h : loopBody listen_fd w s = some (s1, ev, fl)) :
    s1.client_fd = d ∧ fl = Flow.again ∧ recvFds ev = [d] ∧
      (Event.accept listen_fd d ∉ ev → Event.close d ∉ ev) ∧
      Event.perror Call.recv ∉ ev ∧ ∀ k, Event.stdout (Msg.received k) ∉ ev := by
  obtain ⟨pre, evR, hR, hmem, rfl, rfl, h1, h2, h3, h4⟩ :=
    loopBody_occupied_ready hd hd0 hr hready h
  rw [hrecv] at hR
  have hstep : recvStep d (readFds listen_fd d w.ready) (⟨n, EINTR⟩ :: rs) =
      some (d, [Event.recv d n], rs) := by
    unfold recvStep
    simp [hd0, hmem, not_lt.mpr (le_of_lt hn), ne_of_lt hn]
  rw [hstep] at hR
  simp only [Option.some.injEq, Prod.mk.injEq] at hR
  obtain ⟨hc, rfl, _⟩ := hR
  refine ⟨hc.symm, rfl, ?_, ?_, ?_, ?_⟩
  · rw [recvFds_append, h1]; rfl
  · intro hacc hm
    rcases List.mem_append.mp hm with hm | hm
    · exact hacc (List.mem_append_left _ (h4 d hm))
    · simp at hm
  · intro hm
    rcases List.mem_append.mp hm with hm | hm
    · exact h2 hm
    · simp at hm
  · intro k hm
    rcases List.mem_append.mp hm with hm | hm
    · exact h3 k hm
    · simp at hm

/-- C3, amended. An iteration that starts with the slot holding `d`, in which
the wait reports `d` readable and `recv` on `d` fails with `EINTR` (the drain,
if the listening descriptor is readable too, meeting a failing `accept`): the
iteration completes and the loop goes on, the slot still holds `d`, `recv` was
called once on `d`, no read error and no byte count is reported, and `d` is not
closed (unless an `accept` of this very iteration returned the number `d`,
which the drain then closes as a refused connection). -/
theorem loopBody_recv_eintr (listen_fd d n : Int) (w : WaitRet) (s : State)
    (rs : List SysRet) (hd : s.client_fd = d) (hd0 : 0 ≤ d) (hr : 0 ≤ w.ret)
    (hready : d ∈ w.ready) (hrecv : s.recvs = ⟨n, EINTR⟩ :: rs) (hn : n < 0)
    (hdrain : listen_fd ∈ w.ready → ∃ x ∈ s.accepts, x.ret < 0) :
    ∃ s1 ev, loopBody listen_fd w s = some (s1, ev, Flow.again) ∧ s1.client_fd = d ∧
      recvFds ev = [d] ∧ (Event.accept listen_fd d ∉ ev → Event.close d ∉ ev) ∧
      Event.perror Call.recv ∉ ev ∧ ∀ k, Event.stdout (Msg.received k) ∉ ev := by
  obtain ⟨⟨s1, ev, fl⟩, h⟩ := loopBody_returns listen_fd w s hdrain (by rw [hrecv]; simp)
  obtain ⟨h1, rfl, h3, h4, h5, h6⟩ :=
    recv_eintr_step listen_fd d n w s s1 ev fl rs hd hd0 hr hready hrecv hn h
  exact ⟨s1, ev, h, h1, h3, h4, h5, h6⟩

/-- Witness for C3 (amended): slot holding 4, listening descriptor and 4 both
readable, one connection refused, then `recv` fails with `EINTR`. -/
theorem loopBody_recv_eintr_witness :
    ∃ s1 ev, loopBody 3 ⟨false, 2, 0, [3, 4]⟩
        ⟨4, 0, [⟨5, 0⟩, ⟨-1, EAGAIN⟩], [⟨-1, EINTR⟩]⟩ = some (s1, ev, Flow.again) ∧
      s1.client_fd = 4 ∧ recvFds ev = [4] ∧ (Event.accept 3 4 ∉ ev → Event.close 4 ∉ ev) ∧
      Event.perror Call.recv ∉ ev ∧ ∀ k, Event.stdout (Msg.received k) ∉ ev :=
  loopBody_recv_eintr 3 4 (-1) ⟨false, 2, 0, [3, 4]⟩
    ⟨4, 0, [⟨5, 0⟩, ⟨-1, EAGAIN⟩], [⟨-1, EINTR⟩]⟩ [] rfl (by decide) (by decide) (by decide)
    rfl (by decide) (fun _ => ⟨⟨-1, EAGAIN⟩, by decide, by decide⟩)

/-- C7, as stated, fails: slot holding 4, descriptor 4 readable, `recv` fails
with `EINTR`, which is not a would-block error.  Nothing is reported, 4 stays
open and the slot keeps it. -/
theorem recv_eintr_keeps_slot :
    EINTR ≠ EAGAIN ∧ EINTR ≠ EWOULDBLOCK ∧
      loopBody 3 ⟨false, 1, 0, [4]⟩ ⟨4, 0, [], [⟨-1, EINTR⟩]⟩ =
        some (⟨4, 0, [], []⟩,
          [Event.fdset 3, Event.fdset 4, Event.pselect 5 [3, 4], Event.recv 4 (-1)],
          Flow.again) := by
  decide

/-- A completed iteration in which the slot holds `d`, `d` is readable and
`recv` fails with an `errno` other than `EINTR`. -/
theorem recv_error_step (listen_fd d n e : Int) (w : WaitRet) (s s1 : State)
    (ev : List Event) (fl : Flow) (rs : List SysRet)
    (hd : s.client_fd = d) (hd0 : 0 ≤ d) (hr : 0 ≤ w.ret) (hready : d ∈ w.ready)
    (hrecv : s.recvs = ⟨n, e⟩ :: rs) (hn : n < 0) (he : e ≠ EINTR)
    (h : loopBody listen_fd w s = some (s1, ev, fl)) :
    s1.client_fd = -1 ∧ fl = Flow.again ∧
      ∃ pre, ev = pre ++ [Event.recv d n, Event.perror Call.recv, Event.close d] ∧
        recvFds pre = [] := by
  obtain ⟨pre, evR, hR, hmem, rfl, rfl, h1, _, _, _⟩ :=
    loopBody_occupied_ready hd hd0 hr hready h
  rw [hrecv] at hR
  have hstep : recvStep d (readFds listen_fd d w.ready) (⟨n, e⟩ :: rs) =
      some (-1, [Event.recv d n, Event.perror Call.recv, Event.close d], rs) := by
    unfold recvStep
    simp [hd0, hmem, not_lt.mpr (le_of_lt hn), ne_of_lt hn, he]
  rw [hstep] at hR
  simp only [Option.some.injEq, Prod.mk.injEq] at hR
  obtain ⟨hc, rfl, _⟩ := hR
  exact ⟨hc.symm, rfl, pre, rfl, h1⟩

/-- C7, amended. An iteration that starts with the slot holding `d`, in which
the wait reports `d` readable and `recv` on `d` fails with an `errno` other
than `EINTR`, would-block included (the drain, if the listening descriptor is
readable too, meeting a failing `accept`): the iteration completes and the
loop goes on, the slot becomes empty (`-1`), and the iteration ends with the
`recv` call, the report of the read error and `close(d)`. -/
theorem loopBody_recv_error (listen_fd d n e : Int) (w : WaitRet) (s : State)
    (rs : List SysRet) (hd : s.client_fd = d) (hd0 : 0 ≤ d) (hr : 0 ≤ w.ret)
    (hready : d ∈ w.ready) (hrecv : s.recvs = ⟨n, e⟩ :: rs) (hn : n < 0) (he : e ≠ EINTR)
    (hdrain : listen_fd ∈ w.ready → ∃ x ∈ s.accepts, x.ret < 0) :
    ∃ s1 ev, loopBody listen_fd w s = some (s1, ev, Flow.again) ∧ s1.client_fd = -1 ∧
      ∃ pre, ev = pre ++ [Event.recv d n, Event.perror Call.recv, Event.close d] ∧
        recvFds pre = [] := by
  obtain ⟨⟨s1, ev, fl⟩, h⟩ := loopBody_returns listen_fd w s hdrain (by rw [hrecv]; simp)
  obtain ⟨h1, rfl, h3⟩ :=
    recv_error_step listen_fd d n e w s s1 ev fl rs hd hd0 hr hready hrecv hn he h
  exact ⟨s1, ev, h, h1, h3⟩

/-- Witness for C7 (amended): slot holding 4, `recv` fails with `EAGAIN`. -/
theorem loopBody_recv_error_witness :
    ∃ s1 ev, loopBody 3 ⟨false, 1, 0, [4]⟩ ⟨4, 0, [], [⟨-1, EAGAIN⟩]⟩ =
        some (s1, ev, Flow.again) ∧ s1.client_fd = -1 ∧
      ∃ pre, ev = pre ++ [Event.recv 4 (-1), Event.perror Call.recv, Event.close 4] ∧
        recvFds pre = [] :=
  loopBody_recv_error 3 4 (-1) EAGAIN ⟨false, 1, 0, [4]⟩ ⟨4, 0, [], [⟨-1, EAGAIN⟩]⟩ []
    rfl (by decide) (by decide) (by decide) rfl (by decide) (by decide)
    (fun h => absurd h (by decide))

/-! ## Which descriptor is read -/

/-- Inversion of an iteration whose wait failed. -/
theorem loopBody_fail_inv {listen_fd : Int} {w : WaitRet} {s s1 : State} {ev : List Event}
    {fl : Flow} (hr : w.ret < 0) (h : loopBody listen_fd w s = some (s1, ev, fl)) :
    s1.client_fd = s.client_fd ∧ s1.accepts = s.accepts ∧ s1.recvs = s.recvs ∧
      ((w.errno = EINTR ∧ fl = Flow.again ∧ ev = waitEvents listen_fd s.client_fd ++
          latchEvents (if w.sighup then on_sighup s.g_sighup else s.g_sighup)) ∨
       (w.errno ≠ EINTR ∧ fl = Flow.leave ∧ ev = waitEvents listen_fd s.client_fd ++
          latchEvents (if w.sighup then on_sighup s.g_sighup else s.g_sighup) ++
          [Event.perror Call.pselect])) := by
  unfold loopBody at h
  simp only [hr, if_true] at h
  by_cases he : w.errno = EINTR
  · simp only [he, if_true, Option.some.injEq, Prod.mk.injEq] at h
    obtain ⟨rfl, rfl, rfl⟩ := h
    exact ⟨rfl, rfl, rfl, Or.inl ⟨he, rfl, rfl⟩⟩
  · simp only [he, if_false, Option.some.injEq, Prod.mk.injEq] at h
    obtain ⟨rfl, rfl, rfl⟩ := h
    exact ⟨rfl, rfl, rfl, Or.inr ⟨he, rfl, rfl⟩⟩

/-- The read step calls `recv` at most once, on the slot it is given. -/
theorem recvStep_recvFds {c c1 : Int} {rfds : List Int} {recvs rc : List SysRet}
    {ev : List Event} (h : recvStep c rfds recvs = some (c1, ev, rc)) :
    (ev = [] ∧ c1 = c) ∨ (recvFds ev = [c] ∧ 0 ≤ c ∧ c ∈ rfds) := by
  rcases recvStep_inv h with ⟨_, h1, h2, _⟩ | ⟨h1, h2, r, _, h3⟩
  · exact Or.inl ⟨h2, h1⟩
  · right
    rcases h3 with ⟨_, _, rfl⟩ | ⟨_, _, rfl⟩ | ⟨_, _, _, rfl⟩ | ⟨_, _, _, rfl⟩ <;>
      exact ⟨rfl, h1, h2⟩

theorem waitEvents_no_install (listen_fd client_fd g f : Int) :
    Event.install f ∉ waitEvents listen_fd client_fd ++ latchEvents g := by
  unfold waitEvents latchEvents
  by_cases hc : client_fd ≥ 0 <;> by_cases hg : g ≠ 0 <;> simp [hc, hg]

theorem recvStep_no_install {c c1 : Int} {rfds : List Int} {recvs rc : List SysRet}
    {ev : List Event} (h : recvStep c rfds recvs = some (c1, ev, rc)) (f : Int) :
    Event.install f ∉ ev := by
  rcases recvStep_inv h with ⟨_, _, rfl, _⟩ | ⟨_, _, r, _, h3⟩
  · simp
  · rcases h3 with ⟨_, _, rfl⟩ | ⟨_, _, rfl⟩ | ⟨_, _, _, rfl⟩ | ⟨_, _, _, rfl⟩ <;> simp

/-- C10. In one iteration, provided no `accept` returns the number of the
listening descriptor: `recv` is called at most once, and when it is called its
argument is the descriptor that was in the slot when the watch set was built,
it was put in the watch set, and the wait (which succeeded) reported it
readable.  In particular, when the iteration installs an accepted descriptor
into the (empty) slot, it calls `recv` on nothing, although line 133 tests
`rfds` with the new value of `client_fd`. -/
theorem loopBody_recv_only_watched_slot (listen_fd : Int) (w : WaitRet) (s s1 : State)
    (ev : List Event) (fl : Flow) (hacc : ∀ x ∈ s.accepts, x.ret ≠ listen_fd)
    (h : loopBody listen_fd w s = some (s1, ev, fl)) :
    (recvFds ev = [] ∨ (recvFds ev = [s.client_fd] ∧ 0 ≤ s.client_fd ∧
        s.client_fd ∈ watchSet listen_fd s.client_fd ∧ s.client_fd ∈ w.ready ∧ 0 ≤ w.ret)) ∧
      (∀ f, Event.install f ∈ ev → recvFds ev = []) := by
  by_cases hr : w.ret < 0
  · obtain ⟨_, _, _, h1⟩ := loopBody_fail_inv hr h
    have h0 : recvFds ev = [] := by
      rcases h1 with ⟨_, _, rfl⟩ | ⟨_, _, rfl⟩
      · rw [recvFds_append, (waitEvents_noDescriptorCall _ _).2.1,
          (latchEvents_noDescriptorCall _).2.1]; rfl
      · rw [recvFds_append, recvFds_append, (waitEvents_noDescriptorCall _ _).2.1,
          (latchEvents_noDescriptorCall _).2.1]; rfl
    exact ⟨Or.inl h0, fun _ _ => h0⟩
  · have hr0 : 0 ≤ w.ret := not_lt.mp hr
    obtain ⟨c, evA, evR, hA, hR, rfl, rfl, _⟩ := loopBody_ok_inv hr0 h
    have hA1 : (c = s.client_fd ∨ (s.client_fd < 0 ∧ 0 ≤ c ∧ ∃ x ∈ s.accepts, x.ret = c)) ∧
        recvFds evA = [] ∧ (∀ f, Event.install f ∈ evA → s.client_fd < 0 ∧ f = c) := by
      rcases hA with ⟨_, hdr⟩ | ⟨_, rfl, rfl, _⟩
      · obtain ⟨i1, i2, _, _, _⟩ := acceptDrain_inv hdr
        refine ⟨?_, acceptDrain_recvFds hdr, i2⟩
        rcases i1 with i1 | ⟨j1, j2, _, j4⟩
        · exact Or.inl i1
        · exact Or.inr ⟨j1, j2, j4⟩
      · exact ⟨Or.inl rfl, rfl, by simp⟩
    obtain ⟨hc, hAr, hAi⟩ := hA1
    have hpre : recvFds (waitEvents listen_fd s.client_fd ++
        latchEvents (if w.sighup then on_sighup s.g_sighup else s.g_sighup) ++ evA) = [] := by
      rw [recvFds_append, recvFds_append, (waitEvents_noDescriptorCall _ _).2.1,
        (latchEvents_noDescriptorCall _).2.1, hAr]; rfl
    have hread : 0 ≤ c → c ∈ readFds listen_fd s.client_fd w.ready →
        c = s.client_fd ∧ 0 ≤ s.client_fd ∧ c ∈ w.ready := by
      intro h4 hm
      obtain ⟨h1, h2⟩ := mem_readFds.mp hm
      rcases h1 with h1 | ⟨h1, h3⟩
      · rcases hc with hc | ⟨_, _, x, hx, hxc⟩
        · exact ⟨hc, hc ▸ h4, h2⟩
        · exact absurd (hxc.trans h1) (hacc x hx)
      · exact ⟨h3, h1, h2⟩
    refine ⟨?_, ?_⟩
    · rcases recvStep_recvFds hR with ⟨rfl, _⟩ | ⟨h1, h2, h3⟩
      · left; simpa using hpre
      · right
        obtain ⟨rfl, h4, h5⟩ := hread h2 h3
        refine ⟨?_, h4, ?_, h5, hr0⟩
        · rw [recvFds_append, hpre, h1]; rfl
        · unfold watchSet; simp [h4]
    · intro f hf
      rcases List.mem_append.mp hf with hf | hf
      · rcases List.mem_append.mp hf with hf | hf
        · exact absurd hf (waitEvents_no_install _ _ _ _)
        · obtain ⟨h1, rfl⟩ := hAi f hf
          rcases recvStep_recvFds hR with ⟨rfl, _⟩ | ⟨_, h2, h3⟩
          · simpa using hpre
          · obtain ⟨_, h4, _⟩ := hread h2 h3
            omega
      · exact absurd hf (recvStep_no_install hR f)

/-- Witness for C10: empty slot, listening descriptor 3 readable, `accept`
returns 5 (installed) and then would block; 5 is also reported readable. -/
theorem loopBody_recv_only_watched_slot_witness :
    (recvFds [Event.fdset 3, Event.pselect 4 [3], Event.accept 3 5,
          Event.stdout Msg.newConnection, Event.install 5, Event.accept 3 (-1)] = [] ∨
        (recvFds [Event.fdset 3, Event.pselect 4 [3], Event.accept 3 5,
            Event.stdout Msg.newConnection, Event.install 5, Event.accept 3 (-1)] = [-1] ∧
          (0 : Int) ≤ -1 ∧ (-1 : Int) ∈ watchSet 3 (-1) ∧ (-1 : Int) ∈ [3, 5] ∧
          (0 : Int) ≤ 1)) ∧
      (∀ f, Event.install f ∈ [Event.fdset 3, Event.pselect 4 [3], Event.accept 3 5,
          Event.stdout Msg.newConnection, Event.install 5, Event.accept 3 (-1)] →
        recvFds [Event.fdset 3, Event.pselect 4 [3], Event.accept 3 5,
          Event.stdout Msg.newConnection, Event.install 5, Event.accept 3 (-1)] = []) :=
  loopBody_recv_only_watched_slot 3 ⟨false, 1, 0, [3, 5]⟩
    ⟨-1, 0, [⟨5, 0⟩, ⟨-1, EAGAIN⟩], [⟨7, 0⟩]⟩ ⟨5, 0, [], [⟨7, 0⟩]⟩ _ Flow.again
    (by decide) (by decide)

/-! ## Peer close -/

/-- Inversion of a run of the loop that performs at least one iteration. -/
theorem eventLoop_cons_inv {listen_fd : Int} {w : WaitRet} {ws : List WaitRet} {s s2 : State}
    {ev2 : List Event} {fl2 : Flow}
    (h : eventLoop listen_fd (w :: ws) s = some (s2, ev2, fl2)) :
    ∃ s1 ev1 fl1, loopBody listen_fd w s = some (s1, ev1, fl1) ∧
      ((fl1 = Flow.leave ∧ s2 = s1 ∧ ev2 = ev1 ∧ fl2 = Flow.leave) ∨
       (fl1 = Flow.again ∧ ∃ ev3, eventLoop listen_fd ws s1 = some (s2, ev3, fl2) ∧
          ev2 = ev1 ++ ev3)) := by
  unfold eventLoop at h
  cases hb : loopBody listen_fd w s with
  | none => simp [hb] at h
  | some p =>
    obtain ⟨s1, ev1, fl1⟩ := p
    cases fl1 with
    | leave =>
      simp only [hb, Option.some.injEq, Prod.mk.injEq] at h
      obtain ⟨rfl, rfl, rfl⟩ := h
      exact ⟨_, _, _, rfl, Or.inl ⟨rfl, rfl, rfl, rfl⟩⟩
    | again =>
      simp only [hb] at h
      obtain ⟨q, hq, hq2⟩ := Option.map_eq_some'.mp h
      obtain ⟨q1, q2, q3⟩ := q
      simp only [Prod.mk.injEq] at hq2
      obtain ⟨rfl, rfl, rfl⟩ := hq2
      exact ⟨_, _, _, rfl, Or.inr ⟨rfl, q2, hq, rfl⟩⟩

/-- An iteration that starts with a slot other than `d` neither watches nor
reads `d` (for `d` other than the listening descriptor). -/
theorem loopBody_no_use {listen_fd d : Int} {w : WaitRet} {s s1 : State} {ev : List Event}
    {fl : Flow} (hs : s.client_fd ≠ d) (hl : d ≠ listen_fd)
    (h : loopBody listen_fd w s = some (s1, ev, fl)) : ∀ x ∈ ev, usesFd d x = false := by
  have hwait : ∀ x ∈ waitEvents listen_fd s.client_fd ++
      latchEvents (if w.sighup then on_sighup s.g_sighup else s.g_sighup),
      usesFd d x = false := by
    intro x hx
    unfold waitEvents latchEvents watchSet at hx
    simp only [List.mem_append, List.mem_cons, List.mem_ite_nil_right, List.mem_singleton,
      List.not_mem_nil, or_false] at hx
    rcases hx with (rfl | ⟨_, rfl⟩ | rfl) | ⟨_, rfl⟩
    · simpa [usesFd] using fun h => hl h.symm
    · simpa [usesFd] using hs
    · by_cases hc : s.client_fd ≥ 0
      · simp [usesFd, hc]
        exact ⟨hl, fun h => hs h.symm⟩
      · simpa [usesFd, hc] using hl
    · simp [usesFd]
  by_cases hr : w.ret < 0
  · obtain ⟨_, _, _, h1⟩ := loopBody_fail_inv hr h
    rcases h1 with ⟨_, _, rfl⟩ | ⟨_, _, rfl⟩
    · exact hwait
    · intro x hx
      rcases List.mem_append.mp hx with hx | hx
      · exact hwait x hx
      · simp only [List.mem_singleton] at hx
        subst hx
        rfl
  · obtain ⟨c, evA, evR, hA, hR, rfl, rfl, _⟩ := loopBody_ok_inv (not_lt.mp hr) h
    have hAu : ∀ x ∈ evA, usesFd d x = false := by
      rcases hA with ⟨_, hdr⟩ | ⟨_, rfl, rfl, _⟩
      · intro x hx
        exact (acceptDrain_inv hdr).2.2.1 x hx d
      · simp
    have hRu : ∀ x ∈ evR, usesFd d x = false := by
      rcases recvStep_inv hR with ⟨_, _, rfl, _⟩ | ⟨_, h2, r, _, h3⟩
      · simp
      · have hcd : c ≠ d := by
          intro hcd
          obtain ⟨h4, _⟩ := mem_readFds.mp h2
          rcases h4 with h4 | ⟨_, h4⟩
          · exact hl (hcd.symm.trans h4)
          · exact hs (h4.symm.trans hcd)
        rcases h3 with ⟨_, _, rfl⟩ | ⟨_, _, rfl⟩ | ⟨_, _, _, rfl⟩ | ⟨_, _, _, rfl⟩ <;>
          simp [usesFd, hcd]
    intro x hx
    rcases List.mem_append.mp hx with hx | hx
    · rcases List.mem_append.mp hx with hx | hx
      · exact hwait x hx
      · exact hAu x hx
    · exact hRu x hx

/-- After an iteration the slot is what it was, or empty, or a descriptor
installed during the iteration. -/
theorem loopBody_slot {listen_fd : Int} {w : WaitRet} {s s1 : State} {ev : List Event}
    {fl : Flow} (h : loopBody listen_fd w s = some (s1, ev, fl)) :
    s1.client_fd = s.client_fd ∨ s1.client_fd = -1 ∨ Event.install s1.client_fd ∈ ev := by
  by_cases hr : w.ret < 0
  · exact Or.inl (loopBody_fail_inv hr h).1
  · obtain ⟨c, evA, evR, hA, hR, rfl, rfl, _⟩ := loopBody_ok_inv (not_lt.mp hr) h
    have hc1 : s1.client_fd = c ∨ s1.client_fd = -1 := by
      rcases recvStep_inv hR with ⟨_, h1, _, _⟩ | ⟨_, _, r, _, h3⟩
      · exact Or.inl h1
      · rcases h3 with ⟨_, h1, _⟩ | ⟨_, h1, _⟩ | ⟨_, _, h1, _⟩ | ⟨_, _, h1, _⟩
        · exact Or.inl h1
        · exact Or.inr h1
        · exact Or.inr h1
        · exact Or.inl h1
    rcases hc1 with hc1 | hc1
    · rcases hA with ⟨_, hdr⟩ | ⟨_, rfl, rfl, _⟩
      · rcases (acceptDrain_inv hdr).1 with i1 | ⟨_, _, i3, _⟩
        · exact Or.inl (hc1.trans i1)
        · right; right
          rw [hc1]
          simp [i3]
      · exact Or.inl hc1
    · exact Or.inr (Or.inl hc1)

/-- In a run of the loop that starts with a slot other than `d`, every action
that watches or reads `d` comes after an installation of `d`. -/
theorem eventLoop_use_after_install {listen_fd d : Int} (hd0 : 0 ≤ d) (hl : d ≠ listen_fd)
    (ws : List WaitRet) :
    ∀ (s s2 : State) (ev2 : List Event) (fl2 : Flow), s.client_fd ≠ d →
      eventLoop listen_fd ws s = some (s2, ev2, fl2) →
      ∀ pre x post, ev2 = pre ++ x :: post → usesFd d x = true → Event.install d ∈ pre := by
  induction ws with
  | nil =>
    intro s s2 ev2 fl2 _ h pre x post hsplit _
    simp only [eventLoop, Option.some.injEq, Prod.mk.injEq] at h
    obtain ⟨_, rfl, _⟩ := h
    simp at hsplit
  | cons w ws ih =>
    intro s s2 ev2 fl2 hs h pre x post hsplit hx
    obtain ⟨s1, ev1, fl1, hb, hcase⟩ := eventLoop_cons_inv h
    have hno := loopBody_no_use hs hl hb
    rcases hcase with ⟨_, _, rfl, _⟩ | ⟨_, ev3, hrun, rfl⟩
    · have : usesFd d x = false := hno x (by rw [hsplit]; simp)
      rw [this] at hx
      exact absurd hx (by decide)
    · rcases List.append_eq_append_iff.mp hsplit with ⟨a, ha1, ha2⟩ | ⟨b, hb1, hb2⟩
      · -- `pre = ev1 ++ a`, `ev3 = a ++ x :: post`
        by_cases hs1 : s1.client_fd = d
        · rcases loopBody_slot hb with h1 | h1 | h1
          · exact absurd (h1.symm.trans hs1) hs
          · omega
          · rw [ha1, hs1.symm]
            exact List.mem_append_left _ h1
        · rw [ha1]
          exact List.mem_append_right _ (ih s1 s2 ev3 fl2 hs1 hrun a x post ha2 hx)
      · -- `ev1 = pre ++ b`, `x :: post = b ++ ev3`
        cases b with
        | nil =>
          simp only [List.append_nil, List.nil_append] at hb1 hb2
          by_cases hs1 : s1.client_fd = d
          · rcases loopBody_slot hb with h1 | h1 | h1
            · exact absurd (h1.symm.trans hs1) hs
            · omega
            · rw [← hb1, hs1.symm]
              exact h1
          · have := ih s1 s2 ev3 fl2 hs1 hrun [] x post hb2.symm hx
            simp at this
        | cons y b =>
          simp only [List.cons_append, List.cons.injEq] at hb2
          obtain ⟨rfl, _⟩ := hb2
          have : usesFd d x = false := hno x (by rw [hb1]; simp)
          rw [this] at hx
          exact absurd hx (by decide)

/-- A completed iteration in which the slot holds `d`, `d` is readable and
`recv` returns 0, followed by any run of later iterations. -/
theorem peer_close_step (listen_fd d e : Int) (w : WaitRet) (s s1 : State)
    (ev : List Event) (fl : Flow) (rs : List SysRet)
    (hd : s.client_fd = d) (hd0 : 0 ≤ d) (hl : d ≠ listen_fd) (hr : 0 ≤ w.ret)
    (hready : d ∈ w.ready) (hrecv : s.recvs = ⟨0, e⟩ :: rs)
    (h : loopBody listen_fd w s = some (s1, ev, fl)) :
    s1.client_fd = -1 ∧ fl = Flow.again ∧
      (∃ pre, ev = pre ++ [Event.recv d 0, Event.close d] ∧ recvFds pre = []) ∧
      ∀ (ws : List WaitRet) (s2 : State) (ev2 : List Event) (fl2 : Flow),
        eventLoop listen_fd ws s1 = some (s2, ev2, fl2) →
        ∀ pre x post, ev2 = pre ++ x :: post → usesFd d x = true →
          Event.install d ∈ pre := by
  obtain ⟨pre, evR, hR, hmem, rfl, rfl, h1, _, _, _⟩ :=
    loopBody_occupied_ready hd hd0 hr hready h
  rw [hrecv] at hR
  have hstep : recvStep d (readFds listen_fd d w.ready) (⟨0, e⟩ :: rs) =
      some (-1, [Event.recv d 0, Event.close d], rs) := by
    unfold recvStep
    simp [hd0, hmem]
  rw [hstep] at hR
  simp only [Option.some.injEq, Prod.mk.injEq] at hR
  obtain ⟨hc, rfl, _⟩ := hR
  refine ⟨hc.symm, rfl, ⟨pre, rfl, h1⟩, ?_⟩
  intro ws s2 ev2 fl2 hrun
  exact eventLoop_use_after_install hd0 hl ws s1 s2 ev2 fl2 (by omega) hrun

/-- C2. An iteration that starts with the slot holding `d` (not the listening
descriptor), in which the wait reports `d` readable and `recv` on `d` returns
0 (the drain, if the listening descriptor is readable too, meeting a failing
`accept`): the iteration completes, ending with that `recv` followed by
`close(d)`, the slot becomes empty (`-1`) and the loop goes on.  In every run
of later iterations, each `FD_SET(d)`, each `pselect` whose watch set holds
`d` and each `recv(d)` comes after `d` has been installed anew from a later
`accept`. -/
theorem loopBody_peer_close (listen_fd d e : Int) (w : WaitRet) (s : State)
    (rs : List SysRet) (hd : s.client_fd = d) (hd0 : 0 ≤ d) (hl : d ≠ listen_fd)
    (hr : 0 ≤ w.ret) (hready : d ∈ w.ready) (hrecv : s.recvs = ⟨0, e⟩ :: rs)
    (hdrain : listen_fd ∈ w.ready → ∃ x ∈ s.accepts, x.ret < 0) :
    ∃ s1 ev, loopBody listen_fd w s = some (s1, ev, Flow.again) ∧ s1.client_fd = -1 ∧
      (∃ pre, ev = pre ++ [Event.recv d 0, Event.close d] ∧ recvFds pre = []) ∧
      ∀ (ws : List WaitRet) (s2 : State) (ev2 : List Event) (fl2 : Flow),
        eventLoop listen_fd ws s1 = some (s2, ev2, fl2) →
        ∀ pre x post, ev2 = pre ++ x :: post → usesFd d x = true →
          Event.install d ∈ pre := by
  obtain ⟨⟨s1, ev, fl⟩, h⟩ := loopBody_returns listen_fd w s hdrain (by rw [hrecv]; simp)
  obtain ⟨h1, rfl, h3, h4⟩ :=
    peer_close_step listen_fd d e w s s1 ev fl rs hd hd0 hl hr hready hrecv h
  exact ⟨s1, ev, h, h1, h3, h4⟩

/-- Witness for C2: slot holding 4, descriptor 4 readable, `recv` returns 0. -/
theorem loopBody_peer_close_witness :
    ∃ s1 ev, loopBody 3 ⟨false, 1, 0, [4]⟩ ⟨4, 0, [], [⟨0, 0⟩]⟩ = some (s1, ev, Flow.again) ∧
      s1.client_fd = -1 ∧
      (∃ pre, ev = pre ++ [Event.recv 4 0, Event.close 4] ∧ recvFds pre = []) ∧
      ∀ (ws : List WaitRet) (s2 : State) (ev2 : List Event) (fl2 : Flow),
        eventLoop 3 ws s1 = some (s2, ev2, fl2) →
        ∀ pre x post, ev2 = pre ++ x :: post → usesFd 4 x = true →
          Event.install 4 ∈ pre :=
  loopBody_peer_close 3 4 0 ⟨false, 1, 0, [4]⟩ ⟨4, 0, [], [⟨0, 0⟩]⟩ [] rfl (by decide)
    (by decide) (by decide) (by decide) rfl (fun h => absurd h (by decide))

/-! ## Descriptors at shutdown -/

/-- An iteration never closes a descriptor that is not open, and the open
descriptors stay the listening descriptor plus the slot. -/
theorem loopBody_descriptors {listen_fd : Int} {w : WaitRet} {s s1 : State} {ev : List Event}
    {fl : Flow} (h : loopBody listen_fd w s = some (s1, ev, fl)) :
    closesValid ev (heldFds s.client_fd ++ [listen_fd]) = true ∧
      openAfter ev (heldFds s.client_fd ++ [listen_fd]) = heldFds s1.client_fd ++ [listen_fd] := by
  by_cases hr : w.ret < 0
  · obtain ⟨h0, _, _, h1⟩ := loopBody_fail_inv hr h
    rw [h0]
    rcases h1 with ⟨_, _, rfl⟩ | ⟨_, _, rfl⟩
    · simp only [closesValid_append, openAfter_append,
        (waitEvents_noDescriptorCall _ _).2.2.1, (waitEvents_noDescriptorCall _ _).2.2.2,
        (latchEvents_noDescriptorCall _).2.2.1, (latchEvents_noDescriptorCall _).2.2.2,
        Bool.and_self, and_self]
    · have hp : ∀ o, closesValid [Event.perror Call.pselect] o = true ∧
          openAfter [Event.perror Call.pselect] o = o := fun o => ⟨rfl, rfl⟩
      simp only [closesValid_append, openAfter_append,
        (waitEvents_noDescriptorCall _ _).2.2.1, (waitEvents_noDescriptorCall _ _).2.2.2,
        (latchEvents_noDescriptorCall _).2.2.1, (latchEvents_noDescriptorCall _).2.2.2,
        (hp _).1, (hp _).2, Bool.and_self, and_self]
  · obtain ⟨c, evA, evR, hA, hR, rfl, rfl, _⟩ := loopBody_ok_inv (not_lt.mp hr) h
    have hAo : (∀ o, closesValid evA o = true) ∧
        openAfter evA (heldFds s.client_fd ++ [listen_fd]) = heldFds c ++ [listen_fd] := by
      rcases hA with ⟨_, hdr⟩ | ⟨_, rfl, rfl, _⟩
      · obtain ⟨i1, _, _, i4, i5⟩ := acceptDrain_inv hdr
        refine ⟨i4, ?_⟩
        rw [i5]
        unfold heldFds
        rcases i1 with j0 | ⟨j1, j2, _⟩
        · rw [j0]
          by_cases hc : s.client_fd < 0
          · simp [hc, not_le.mpr hc]
          · simp [hc]
        · simp [j1, j2, not_le.mpr j1]
      · exact ⟨fun _ => rfl, rfl⟩
    have hRo : closesValid evR (heldFds c ++ [listen_fd]) = true ∧
        openAfter evR (heldFds c ++ [listen_fd]) = heldFds s1.client_fd ++ [listen_fd] := by
      rcases recvStep_inv hR with ⟨_, h1, rfl, _⟩ | ⟨h1, _, r, _, h3⟩
      · rw [h1]; exact ⟨rfl, rfl⟩
      · rcases h3 with ⟨_, h4, rfl⟩ | ⟨_, h4, rfl⟩ | ⟨_, _, h4, rfl⟩ | ⟨_, _, h4, rfl⟩ <;>
          rw [h4] <;> simp [closesValid, openAfter, heldFds, h1]
    simp only [closesValid_append, openAfter_append, (waitEvents_noDescriptorCall _ _).2.2.1,
      (waitEvents_noDescriptorCall _ _).2.2.2, (latchEvents_noDescriptorCall _).2.2.1,
      (latchEvents_noDescriptorCall _).2.2.2, hAo.1, hAo.2, hRo.1, hRo.2, Bool.and_self,
      and_self]

/-- The same for any run of the loop. -/
theorem eventLoop_descriptors {listen_fd : Int} (ws : List WaitRet) :
    ∀ (s s2 : State) (ev : List Event) (fl : Flow),
      eventLoop listen_fd ws s = some (s2, ev, fl) →
      closesValid ev (heldFds s.client_fd ++ [listen_fd]) = true ∧
        openAfter ev (heldFds s.client_fd ++ [listen_fd]) =
          heldFds s2.client_fd ++ [listen_fd] := by
  induction ws with
  | nil =>
    intro s s2 ev fl h
    simp only [eventLoop, Option.some.injEq, Prod.mk.injEq] at h
    obtain ⟨rfl, rfl, _⟩ := h
    exact ⟨rfl, rfl⟩
  | cons w ws ih =>
    intro s s2 ev fl h
    obtain ⟨s1, ev1, fl1, hb, hcase⟩ := eventLoop_cons_inv h
    obtain ⟨b1, b2⟩ := loopBody_descriptors hb
    rcases hcase with ⟨_, rfl, rfl, _⟩ | ⟨_, ev3, hrun, rfl⟩
    · exact ⟨b1, b2⟩
    · obtain ⟨r1, r2⟩ := ih s1 s2 ev3 fl hrun
      simp [closesValid_append, openAfter_append, b1, b2, r1, r2]

theorem shutdownEvents_descriptors (listen_fd client_fd : Int) :
    closesValid (shutdownEvents listen_fd client_fd) (heldFds client_fd ++ [listen_fd]) = true ∧
      openAfter (shutdownEvents listen_fd client_fd) (heldFds client_fd ++ [listen_fd]) = [] := by
  unfold shutdownEvents heldFds
  by_cases hc : client_fd ≥ 0 <;> simp [hc, closesValid, openAfter]

theorem set_nonblock_descriptors (fd : Int) (su : Setup) (o : List Int) :
    closesValid (set_nonblock fd su).2 o = true ∧ openAfter (set_nonblock fd su).2 o = o := by
  unfold set_nonblock
  by_cases hg : su.getflRet < 0 <;> simp [hg, closesValid, openAfter]

/-- C5. Every run of `main` that returns (in particular every run that enters
the event loop and leaves it after a fatal wait failure): replaying the trace
from an empty descriptor table, where `socket` and each successful `accept`
open the descriptor they return, every `close` is applied to a descriptor that
is open at that moment (none is closed twice), and when `main` returns no
descriptor is open (none is leaked).  Hence the listening descriptor and each
accepted descriptor are closed exactly once. -/
theorem main_closes_each_descriptor_once (argv : List (List Char)) (su : Setup) (env : Env)
    (code : Int) (tr : List Event) (h : main argv su env = some (code, tr)) :
    closesValid tr [] = true ∧ openAfter tr [] = [] := by
  unfold main at h
  cases hp : startupPort argv with
  | none =>
    simp only [hp, Option.some.injEq, Prod.mk.injEq] at h
    obtain ⟨_, rfl⟩ := h
    exact ⟨rfl, rfl⟩
  | some port =>
    simp only [hp] at h
    have hnb := set_nonblock_descriptors su.socketRet su
    split_ifs at h with h1 h2 h3 h4 h5 h6
    · simp only [Option.some.injEq, Prod.mk.injEq] at h
      obtain ⟨_, rfl⟩ := h
      simp [closesValid, openAfter, not_le.mpr h1]
    · simp only [Option.some.injEq, Prod.mk.injEq] at h
      obtain ⟨_, rfl⟩ := h
      simp [closesValid, openAfter, not_lt.mp h1]
    · simp only [Option.some.injEq, Prod.mk.injEq] at h
      obtain ⟨_, rfl⟩ := h
      simp [closesValid, openAfter, not_lt.mp h1]
    · simp only [Option.some.injEq, Prod.mk.injEq] at h
      obtain ⟨_, rfl⟩ := h
      simp [closesValid_append, openAfter_append, closesValid, openAfter, not_lt.mp h1,
        hnb [su.socketRet]]
    · simp only [Option.some.injEq, Prod.mk.injEq] at h
      obtain ⟨_, rfl⟩ := h
      simp [closesValid_append, openAfter_append, closesValid, openAfter, not_lt.mp h1,
        hnb [su.socketRet]]
    · simp only [Option.some.injEq, Prod.mk.injEq] at h
      obtain ⟨_, rfl⟩ := h
      simp [setupEvents, closesValid_append, openAfter_append, closesValid, openAfter,
        not_lt.mp h1, hnb [su.socketRet]]
    · cases hrun : eventLoop su.socketRet env.waits
          { client_fd := -1, g_sighup := 0, accepts := env.accepts, recvs := env.recvs } with
      | none => simp [hrun] at h
      | some p =>
        obtain ⟨s2, ev, fl⟩ := p
        cases fl with
        | again => simp [hrun] at h
        | leave =>
          simp only [hrun, Option.some.injEq, Prod.mk.injEq] at h
          obtain ⟨_, rfl⟩ := h
          obtain ⟨r1, r2⟩ := eventLoop_descriptors env.waits _ s2 ev Flow.leave hrun
          obtain ⟨q1, q2⟩ := shutdownEvents_descriptors su.socketRet s2.client_fd
          have hheld : heldFds (-1) = [] := by decide
          simp only [hheld, List.nil_append] at r1 r2
          simp [setupEvents, closesValid_append, openAfter_append, closesValid, openAfter,
            not_lt.mp h1, hnb [su.socketRet], r1, r2, q1, q2]

/-- Witness for C5: two connections arrive together (5 is installed, 6 is
closed), the peer of 5 closes, 7 is installed, and the wait then fails with
`EBADF`. -/
theorem main_closes_each_descriptor_once_witness :
    closesValid [Event.socket 3, Event.bind 3 12345, Event.listen 3, Event.getfl 3,
        Event.setfl 3 0, Event.sigaction, Event.sigprocmask,
        Event.fdset 3, Event.pselect 4 [3], Event.accept 3 5, Event.stdout Msg.newConnection,
        Event.install 5, Event.accept 3 6, Event.stdout Msg.newConnection, Event.close 6,
        Event.accept 3 (-1),
        Event.fdset 3, Event.fdset 5, Event.pselect 6 [3, 5], Event.recv 5 0, Event.close 5,
        Event.fdset 3, Event.pselect 4 [3], Event.accept 3 7, Event.stdout Msg.newConnection,
        Event.install 7, Event.accept 3 (-1),
        Event.fdset 3, Event.fdset 7, Event.pselect 8 [3, 7], Event.perror Call.pselect,
        Event.close 7, Event.close 3] [] = true ∧
      openAfter [Event.socket 3, Event.bind 3 12345, Event.listen 3, Event.getfl 3,
        Event.setfl 3 0, Event.sigaction, Event.sigprocmask,
        Event.fdset 3, Event.pselect 4 [3], Event.accept 3 5, Event.stdout Msg.newConnection,
        Event.install 5, Event.accept 3 6, Event.stdout Msg.newConnection, Event.close 6,
        Event.accept 3 (-1),
        Event.fdset 3, Event.fdset 5, Event.pselect 6 [3, 5], Event.recv 5 0, Event.close 5,
        Event.fdset 3, Event.pselect 4 [3], Event.accept 3 7, Event.stdout Msg.newConnection,
        Event.install 7, Event.accept 3 (-1),
        Event.fdset 3, Event.fdset 7, Event.pselect 8 [3, 7], Event.perror Call.pselect,
        Event.close 7, Event.close 3] [] = [] :=
  main_closes_each_descriptor_once [] ⟨3, 0, 0, 0, 0, 0, 0⟩
    ⟨[⟨false, 1, 0, [3]⟩, ⟨false, 1, 0, [5]⟩, ⟨false, 1, 0, [3]⟩, ⟨false, -1, 9, []⟩],
      [⟨5, 0⟩, ⟨6, 0⟩, ⟨-1, EAGAIN⟩, ⟨7, 0⟩, ⟨-1, EAGAIN⟩], [⟨0, 0⟩]⟩ 0 _ (by decide)

/-! ## Exit status -/

/-- C4 on the code: the first wait fails with `EBADF` (9).  The loop is left,
the failure is reported, the listening descriptor is closed, and `main`
returns 0. -/
theorem main_fatal_wait_exit_status :
    main [] ⟨3, 0, 0, 0, 0, 0, 0⟩ ⟨[⟨false, -1, 9, []⟩], [], []⟩ =
      some (0, [Event.socket 3, Event.bind 3 12345, Event.listen 3, Event.getfl 3,
        Event.setfl 3 0, Event.sigaction, Event.sigprocmask, Event.fdset 3,
        Event.pselect 4 [3], Event.perror Call.pselect, Event.close 3]) := by
  decide

/-- Every run of `main` that reports a failed wait returns 0. -/
theorem main_exit_status_after_loop (argv : List (List Char)) (su : Setup) (env : Env)
    (code : Int) (tr : List Event) (h : main argv su env = some (code, tr))
    (hp : Event.perror Call.pselect ∈ tr) : code = 0 := by
  unfold main at h
  cases hport : startupPort argv with
  | none =>
    simp only [hport, Option.some.injEq, Prod.mk.injEq] at h
    obtain ⟨_, rfl⟩ := h
    simp at hp
  | some port =>
    simp only [hport] at h
    have hnb : Event.perror Call.pselect ∉ (set_nonblock su.socketRet su).2 := by
      unfold set_nonblock
      by_cases hg : su.getflRet < 0 <;> simp [hg]
    split_ifs at h with h1 h2 h3 h4 h5 h6
    all_goals first
      | (simp only [Option.some.injEq, Prod.mk.injEq] at h
         obtain ⟨_, rfl⟩ := h
         simp [setupEvents, hnb] at hp)
      | skip
    cases hrun : eventLoop su.socketRet env.waits
        { client_fd := -1, g_sighup := 0, accepts := env.accepts, recvs := env.recvs } with
    | none => simp [hrun] at h
    | some p =>
      obtain ⟨s2, ev, fl⟩ := p
      cases fl with
      | again => simp [hrun] at h
      | leave =>
        simp only [hrun, Option.some.injEq, Prod.mk.injEq] at h
        exact h.1.symm

/-! ## Port argument -/

/-- A value in the range of `int` survives `atoi`. -/
theorem atoi_of_int_range (s : List Char) (h1 : -2 ^ 31 ≤ leadingInt s)
    (h2 : leadingInt s < 2 ^ 31) : atoi s = leadingInt s := by
  unfold atoi strtol toInt32 LONG_MAX LONG_MIN
  have e1 : min (2 ^ 63 - 1) (leadingInt s) = leadingInt s := min_eq_right (by omega)
  have e2 : max (-(2 ^ 63)) (leadingInt s) = leadingInt s := max_eq_right (by omega)
  rw [e1, e2]
  omega

/-- C8, as stated, fails: the argument `80abc` is not a numeral, yet it passes
the validation, with port 80. -/
theorem startupPort_accepts_trailing_text :
    isNumeral ['8', '0', 'a', 'b', 'c'] = false ∧
      startupPort [['l', 'a', 'b', '2'], ['8', '0', 'a', 'b', 'c']] = some 80 ∧
      ∀ su env, main [['l', 'a', 'b', '2'], ['8', '0', 'a', 'b', 'c']] su env ≠
        some (1, [Event.stderr Msg.invalidPort]) := by
  refine ⟨by decide, by decide, ?_⟩
  intro su env h
  have hport : startupPort [['l', 'a', 'b', '2'], ['8', '0', 'a', 'b', 'c']] = some 80 := by
    decide
  unfold main at h
  simp only [hport] at h
  split_ifs at h with h1 h2 h3 h4 h5 h6
  all_goals first
    | (simp [setupEvents] at h; done)
    | skip
  cases hrun : eventLoop su.socketRet env.waits
      { client_fd := -1, g_sighup := 0, accepts := env.accepts, recvs := env.recvs } with
  | none => simp [hrun] at h
  | some p =>
    obtain ⟨s2, ev, fl⟩ := p
    cases fl <;> simp [hrun] at h

/-- The run of `main` that prints `Invalid port` and returns 1 without any
other action is exactly the run in which the port argument is rejected. -/
theorem main_invalid_port_iff (argv : List (List Char)) (su : Setup) (env : Env) :
    main argv su env = some (1, [Event.stderr Msg.invalidPort]) ↔ startupPort argv = none := by
  constructor
  · intro h
    cases hport : startupPort argv with
    | none => rfl
    | some port =>
      exfalso
      unfold main at h
      simp only [hport] at h
      split_ifs at h with h1 h2 h3 h4 h5 h6
      all_goals first
        | (simp [setupEvents] at h; done)
        | skip
      cases hrun : eventLoop su.socketRet env.waits
          { client_fd := -1, g_sighup := 0, accepts := env.accepts, recvs := env.recvs } with
      | none => simp [hrun] at h
      | some p =>
        obtain ⟨s2, ev, fl⟩ := p
        cases fl <;> simp [hrun] at h
  · intro h
    unfold main
    simp only [h]

/-- C8, amended. For a first argument `arg` whose leading integer (white space
skipped, optional sign, longest run of digits, 0 when there is none; whatever
follows the digits is ignored) fits a 32-bit `int`: `main` prints
`Invalid port` and returns 1 having made no other call if and only if that
integer is outside [1, 65535]; otherwise the port is that integer.  With no
argument the port is 12345. -/
theorem startupPort_validation (prog arg : List Char) (rest : List (List Char)) (su : Setup)
    (env : Env) (h1 : -2 ^ 31 ≤ leadingInt arg) (h2 : leadingInt arg < 2 ^ 31) :
    (main (prog :: arg :: rest) su env = some (1, [Event.stderr Msg.invalidPort]) ↔
        (leadingInt arg < 1 ∨ 65535 < leadingInt arg)) ∧
      (1 ≤ leadingInt arg → leadingInt arg ≤ 65535 →
        startupPort (prog :: arg :: rest) = some (leadingInt arg)) ∧
      startupPort [prog] = some 12345 ∧ startupPort [] = some 12345 := by
  have hat := atoi_of_int_range arg h1 h2
  have hsp : startupPort (prog :: arg :: rest) =
      if leadingInt arg ≤ 0 ∨ leadingInt arg > 65535 then none else some (leadingInt arg) := by
    simp only [startupPort, hat]
  refine ⟨?_, ?_, rfl, rfl⟩
  · rw [main_invalid_port_iff, hsp]
    constructor
    · intro h
      by_cases hc : leadingInt arg ≤ 0 ∨ leadingInt arg > 65535
      · rcases hc with hc | hc
        · left; omega
        · right; omega
      · rw [if_neg hc] at h
        exact absurd h (by simp)
    · intro h
      rw [if_pos]
      rcases h with h | h
      · left; omega
      · right; omega
  · intro h3 h4
    rw [hsp, if_neg]
    intro hc
    rcases hc with hc | hc <;> omega

/-- Witness for C8 (amended): the argument `80abc`, whose leading integer is
80. -/
theorem startupPort_validation_witness :
    (main [['l', 'a', 'b', '2'], ['8', '0', 'a', 'b', 'c']] ⟨3, 0, 0, 0, 0, 0, 0⟩
          ⟨[⟨false, -1, 9, []⟩], [], []⟩ = some (1, [Event.stderr Msg.invalidPort]) ↔
        (leadingInt ['8', '0', 'a', 'b', 'c'] < 1 ∨
          65535 < leadingInt ['8', '0', 'a', 'b', 'c'])) ∧
      (1 ≤ leadingInt ['8', '0', 'a', 'b', 'c'] → leadingInt ['8', '0', 'a', 'b', 'c'] ≤ 65535 →
        startupPort [['l', 'a', 'b', '2'], ['8', '0', 'a', 'b', 'c']] =
          some (leadingInt ['8', '0', 'a', 'b', 'c'])) ∧
      startupPort [['l', 'a', 'b', '2']] = some 12345 ∧ startupPort [] = some 12345 :=
  startupPort_validation ['l', 'a', 'b', '2'] ['8', '0', 'a', 'b', 'c'] []
    ⟨3, 0, 0, 0, 0, 0, 0⟩ ⟨[⟨false, -1, 9, []⟩], [], []⟩ (by decide) (by decide)

end Lab2
